import Mathlib

/-!
Verification of `compliancelib/oscal/catalog.py` (OSCAL control-catalog
queries and the recursive Markdown renderer `format_part_as_markdown`).

Strings are modelled as lists of characters (`Str`); Python dictionaries
for parts/controls are modelled as a node type `Part` whose optional keys
become `Option` fields.  Fallible dictionary subscripts (which raise
`KeyError`/`TypeError` in Python) are modelled with `Except Unit`.
-/

namespace Oscal

/-- Machine strings, modelled as lists of characters. -/
abbrev Str := List Char

/-- Coerce a Lean string literal to the character-list model. -/
def str (s : String) : Str := s.data

/-- A `{name, value}` entry of a part's `properties` list. -/
structure Property where
  name : Str
  value : Str
deriving DecidableEq, Repr

/-- An entry of a control's `parameters` list; `label` is an optional key. -/
structure Parameter where
  id : Str
  label : Option Str
deriving DecidableEq, Repr

mutual
/-- One node of the catalog tree: a part or a control.  Fields mirror the
dictionary keys the Python code reads (`name`, `id`, `properties`, `prose`,
`parts`, `controls`, `parameters`); optional keys are `Option`-valued. -/
inductive Part where
  | mk (name : Option Str) (id : Option Str) (properties : List Property)
       (prose : Option Str) (parts : OptParts) (controls : OptParts)
       (parameters : Option (List Parameter)) : Part

/-- Presence or absence of the `parts` / `controls` key of a node. -/
inductive OptParts where
  | none : OptParts
  | some (l : PartList) : OptParts

/-- A list of child parts (spelled out so the tree is a plain mutual
inductive and all recursions over it are structural). -/
inductive PartList where
  | nil : PartList
  | cons (hd : Part) (tl : PartList) : PartList
end

def Part.name : Part → Option Str
  | .mk n _ _ _ _ _ _ => n

def Part.id : Part → Option Str
  | .mk _ i _ _ _ _ _ => i

def Part.properties : Part → List Property
  | .mk _ _ props _ _ _ _ => props

def Part.prose : Part → Option Str
  | .mk _ _ _ p _ _ _ => p

def Part.parts : Part → OptParts
  | .mk _ _ _ _ ps _ _ => ps

def Part.controls : Part → OptParts
  | .mk _ _ _ _ _ cs _ => cs

def Part.parameters : Part → Option (List Parameter)
  | .mk _ _ _ _ _ _ params => params

def PartList.toList : PartList → List Part
  | .nil => []
  | .cons h t => h :: t.toList

/-- The children of a node: the `parts` list if the key is present,
otherwise empty. -/
def Part.childrenList (p : Part) : List Part :=
  match p.parts with
  | .none => []
  | .some l => l.toList

/-- `find_dict_by_value`: first element of `search_array` whose `key`
equals `search_value`, or `None` (source line 103-106). -/
def find_dict_by_value {α : Type} (search_array : List α) (key : α → Str)
    (search_value : Str) : Option α :=
  search_array.find? (fun sub => key sub == search_value)

/-- The literal four-character OSCAL escaped paragraph marker `\n\n`. -/
def marker : Str := ['\\', 'n', '\\', 'n']

/-- Python `prose.replace("\\n\\n", "\n\n")`: scan left to right, replace
each non-overlapping occurrence of the literal marker by two real
newline characters (source line 193). -/
def normalizeProse : Str → Str
  | [] => []
  | [c] => [c]
  | [c₁, c₂] => [c₁, c₂]
  | [c₁, c₂, c₃] => [c₁, c₂, c₃]
  | c₁ :: c₂ :: c₃ :: c₄ :: rest =>
    if c₁ = '\\' ∧ c₂ = 'n' ∧ c₃ = '\\' ∧ c₄ = 'n' then
      '\n' :: '\n' :: normalizeProse rest
    else
      c₁ :: normalizeProse (c₂ :: c₃ :: c₄ :: rest)

/-- Whether the string begins with the four-character marker. -/
def startsMarker : Str → Bool
  | c₁ :: c₂ :: c₃ :: c₄ :: _ =>
    c₁ == '\\' && c₂ == 'n' && c₃ == '\\' && c₄ == 'n'
  | _ => false

/-- Whether the four-character marker occurs anywhere in the string. -/
def hasMarker : Str → Bool
  | [] => false
  | c :: t => startsMarker (c :: t) || hasMarker t

/-- `" " * n`. -/
def spaces (n : Nat) : Str := List.replicate n ' '

/-- `s * n` for a natural repetition count. -/
def strRepeat : Nat → Str → Str
  | 0, _ => []
  | n + 1, s => s ++ strRepeat n s

/-- Python `n * s` on a signed count: a non-positive count yields the
empty string. -/
def strRepeatInt (n : Int) (s : Str) : Str := strRepeat n.toNat s

/-- Python `md.split("\n")`: always returns one more piece than there are
newlines; the empty string splits to `[""]`. -/
def splitNl : Str → List Str
  | [] => [[]]
  | c :: rest =>
    if c = '\n' then [] :: splitNl rest
    else
      match splitNl rest with
      | [] => [[c]]
      | l :: ls => (c :: l) :: ls

/-- Python `"\n".join(lines)`. -/
def joinNl : List Str → Str
  | [] => []
  | [l] => l
  | l :: ls => l ++ '\n' :: joinNl ls

/-- Count of leading space characters of a line. -/
def leadingSpaces : Str → Nat
  | [] => 0
  | c :: t => if c = ' ' then leadingSpaces t + 1 else 0

/-- The child-inclusion test of the renderer's loop (source line 224):
skip a child iff `filter_name` is truthy (present and non-empty, Python
falsy empty set!) and the child's `name` is not a member. -/
def includeChild (filter_name : Option (List Str)) (name : Option Str) : Bool :=
  match filter_name with
  | .none => true
  | .some l =>
    if l.isEmpty then true
    else match name with
      | .some n => l.contains n
      | .none => false

/-- Step 5 of `format_part_as_markdown` (source lines 215-217): if there
was any text, append a blank line (a trailing double newline). -/
def addBoundary (md : Str) : Str :=
  if md ≠ [] then md ++ ['\n', '\n'] else md

/-- Steps 1-5 of `format_part_as_markdown` (source lines 171-217): the
part's own text block — label extraction and root suppression, prose
normalization, label-continuation padding, depth indentation, and the
trailing paragraph boundary. -/
def partText (part : Part) (indentation_level : Int) (indentation_string : Str)
    (hide_first_label : Bool) : Str :=
  let label₀ : Str :=
    match find_dict_by_value part.properties Property.name (str "label") with
    | some label_property => label_property.value ++ [' ']
    | none => []
  let label : Str :=
    if indentation_level = -1 ∧ hide_first_label then [] else label₀
  let md₁ : Str :=
    label ++ (match part.prose with
              | some prose => normalizeProse prose
              | none => [])
  let md₂ : Str :=
    if label ≠ [] then
      match splitNl md₁ with
      | [] => []
      | first :: rest => joinNl (first :: rest.map (fun line => spaces label.length ++ line))
    else md₁
  let md₃ : Str :=
    joinNl ((splitNl md₂).map (fun line => strRepeatInt indentation_level indentation_string ++ line))
  addBoundary md₃

mutual
/-- `format_part_as_markdown` (source lines 165-232): the part's own text
block followed by the rendered blocks of its (filtered) children.  Note
that the recursive call of the source (lines 228-230) passes only
`indentation_string` and `indentation_level + 1`, so the children are
rendered with `filter_name = None` and `hide_first_label = True`. -/
def format_part_as_markdown (part : Part) (indentation_level : Int)
    (indentation_string : Str) (filter_name : Option (List Str))
    (hide_first_label : Bool) : Str :=
  match part with
  | .mk _ _ _ _ parts _ _ =>
    partText part indentation_level indentation_string hide_first_label ++
      (match parts with
       | .none => []
       | .some children => format_children children indentation_level indentation_string filter_name)

/-- The `for part in part["parts"]` loop of the source (lines 220-230). -/
def format_children (children : PartList) (indentation_level : Int)
    (indentation_string : Str) (filter_name : Option (List Str)) : Str :=
  match children with
  | .nil => []
  | .cons child rest =>
    (if includeChild filter_name child.name then
       format_part_as_markdown child (indentation_level + 1) indentation_string none true
     else []) ++
    format_children rest indentation_level indentation_string filter_name
end

/-- A group of the catalog: `{id, controls}` (only the keys the code reads). -/
structure Group where
  id : Str
  controls : List Part

/-- A loaded catalog document: its ordered `groups` list. -/
structure Catalog where
  groups : List Group

/-- `get_groups` (source line 112-113). -/
def get_groups (cat : Catalog) : List Group := cat.groups

/-- `get_group_ids` (source lines 115-117). -/
def get_group_ids (cat : Catalog) : List Str :=
  (get_groups cat).map Group.id

/-- `get_controls` (source lines 119-123). -/
def get_controls (cat : Catalog) : List Part :=
  (get_groups cat).foldl (fun controls group => controls ++ group.controls) []

/-- The directly nested sub-controls of a control: `control['controls']`
when the key is present, else nothing to append. -/
def subControls (control : Part) : List Part :=
  match control.controls with
  | .none => []
  | .some l => l.toList

/-- `get_controls_all` (source lines 129-136): every top-level control in
group order, each followed immediately by its directly nested
sub-controls when the `controls` key is present. -/
def get_controls_all (cat : Catalog) : List Part :=
  (get_groups cat).foldl
    (fun controls group =>
      group.controls.foldl
        (fun cs control => (cs ++ [control]) ++ subControls control)
        controls)
    []

/-- The lazy scan of `next((sub for sub in search_array if sub['id'] ==
search_value), None)` in `get_control_by_id`: each scanned element's
`id` key is subscripted (raising `KeyError`, modelled as `.error ()`,
when absent); elements after the first match are never touched. -/
def scan_controls_for_id (search_array : List Part) (control_id : Str) :
    Except Unit (Option Part) :=
  match search_array with
  | [] => .ok none
  | sub :: rest =>
    match sub.id with
    | none => .error ()
    | some i => if i = control_id then .ok (some sub) else scan_controls_for_id rest control_id

/-- `get_control_by_id` (source lines 142-148). -/
def get_control_by_id (cat : Catalog) (control_id : Str) : Except Unit (Option Part) :=
  scan_controls_for_id (get_controls_all cat) control_id

/-- `get_control_parameter_label_by_id` (source lines 150-153):
`control['parameters']` raises when the key is absent; when
`find_dict_by_value` returns `None`, subscripting `param['label']`
raises; both failures are modelled as `.error ()`. -/
def get_control_parameter_label_by_id (control : Part) (param_id : Str) :
    Except Unit Str :=
  match control.parameters with
  | none => .error ()
  | some params =>
    match find_dict_by_value params Parameter.id param_id with
    | none => .error ()
    | some param =>
      match param.label with
      | none => .error ()
      | some l => .ok l

/-- `get_control_prose_as_markdown` (source lines 155-163): delegate to the
renderer with the defaults `indentation_level = -1`,
`indentation_string = "    "`, `hide_first_label = True`. -/
def get_control_prose_as_markdown (control_data : Part)
    (part_types : Option (List Str)) : Str :=
  format_part_as_markdown control_data (-1) (str "    ") part_types true

/-- The concatenation of the rendered blocks of the included children, as
a `flatMap` over an ordinary list: each included child is rendered at
`indentation_level + 1` with no filter and `hide_first_label = True`,
mirroring the recursive call of source lines 228-230. -/
def renderIncludedChildren (children : List Part) (indentation_level : Int)
    (indentation_string : Str) (filter_name : Option (List Str)) : Str :=
  children.flatMap (fun child =>
    if includeChild filter_name child.name then
      format_part_as_markdown child (indentation_level + 1) indentation_string none true
    else [])

mutual
/-- All part `name` values occurring in a subtree (the node's own name,
then its descendants', in document order). -/
def subtreeNames : Part → List Str
  | .mk n _ _ _ parts _ _ =>
    (match n with | some nm => [nm] | none => []) ++
    (match parts with
     | .none => []
     | .some l => subtreeNamesList l)

/-- `subtreeNames` over a child list. -/
def subtreeNamesList : PartList → List Str
  | .nil => []
  | .cons c rest => subtreeNames c ++ subtreeNamesList rest
end

/-- The part names that can contribute text to the output of a render of
`part` with filter `filter_name`: the renderer skips an immediate child
exactly when `includeChild` is false, and (because the recursive call of
source lines 228-230 drops the filter) renders the whole subtree of every
included child. -/
def contributingNames (part : Part) (filter_name : Option (List Str)) : List Str :=
  (part.childrenList).flatMap (fun child =>
    if includeChild filter_name child.name then subtreeNames child else [])

/-! ### General helper lemmas -/

theorem joinNl_cons_cons (a b : Str) (ls : List Str) :
    joinNl (a :: b :: ls) = a ++ '\n' :: joinNl (b :: ls) := rfl

theorem splitNl_ne_nil (s : Str) : splitNl s ≠ [] := by
  match s with
  | [] => simp [splitNl]
  | c :: rest =>
    simp only [splitNl]
    split
    · simp
    · split <;> simp

theorem joinNl_splitNl (s : Str) : joinNl (splitNl s) = s := by
  induction s with
  | nil => rfl
  | cons c rest ih =>
    simp only [splitNl]
    split
    · rename_i h
      subst h
      rcases hr : splitNl rest with _ | ⟨l, ls⟩
      · exact absurd hr (splitNl_ne_nil rest)
      · rw [hr] at ih
        rw [joinNl_cons_cons, ih]
        simp
    · rcases hr : splitNl rest with _ | ⟨l, ls⟩
      · exact absurd hr (splitNl_ne_nil rest)
      · rw [hr] at ih
        cases ls with
        | nil => simpa [joinNl] using ih
        | cons l' ls' =>
          rw [joinNl_cons_cons] at ih ⊢
          simp only [List.cons_append, List.cons.injEq, true_and]
          exact ih

theorem splitNl_no_nl {s : Str} (h : '\n' ∉ s) : splitNl s = [s] := by
  induction s with
  | nil => rfl
  | cons c rest ih =>
    simp only [List.mem_cons, not_or] at h
    simp only [splitNl]
    rw [if_neg (fun hc => h.1 hc.symm), ih h.2]

theorem mem_splitNl_no_nl {s : Str} : ∀ l ∈ splitNl s, '\n' ∉ l := by
  induction s with
  | nil => intro l hl; simp [splitNl] at hl; simp [hl]
  | cons c rest ih =>
    intro l hl
    simp only [splitNl] at hl
    split at hl
    · rcases List.mem_cons.mp hl with hl | hl
      · simp [hl]
      · exact ih l hl
    · rename_i hc
      rcases hsp : splitNl rest with _ | ⟨p, ps⟩
      · exact absurd hsp (splitNl_ne_nil rest)
      · rw [hsp] at hl
        rcases List.mem_cons.mp hl with hl | hl
        · subst hl
          intro hmem
          rcases List.mem_cons.mp hmem with h1 | h1
          · exact hc h1.symm
          · exact ih p (by rw [hsp]; exact List.mem_cons_self p ps) h1
        · exact ih l (by rw [hsp]; exact List.mem_cons_of_mem p hl)

theorem splitNl_append_no_nl {a b : Str} (ha : '\n' ∉ a) {c : Str} {cs : List Str}
    (hb : splitNl b = c :: cs) : splitNl (a ++ b) = (a ++ c) :: cs := by
  induction a with
  | nil => simpa using hb
  | cons x xs ih =>
    simp only [List.mem_cons, not_or] at ha
    simp only [List.cons_append, splitNl, List.append_eq]
    rw [if_neg (fun hx => ha.1 hx.symm), ih ha.2]

theorem splitNl_joinNl {X : List Str} (hne : X ≠ [])
    (hnl : ∀ l ∈ X, '\n' ∉ l) : splitNl (joinNl X) = X := by
  induction X with
  | nil => exact absurd rfl hne
  | cons x xs ih =>
    cases xs with
    | nil =>
      simp only [joinNl]
      exact splitNl_no_nl (hnl x (List.mem_cons_self x []))
    | cons y ys =>
      rw [joinNl_cons_cons]
      have hx : '\n' ∉ x := hnl x (List.mem_cons_self _ _)
      have htl : splitNl (joinNl (y :: ys)) = y :: ys :=
        ih (by simp) (fun l hl => hnl l (List.mem_cons_of_mem x hl))
      have : splitNl ('\n' :: joinNl (y :: ys)) = [] :: y :: ys := by
        simp [splitNl, htl]
      rw [splitNl_append_no_nl hx this]
      simp

theorem mem_spaces {n : Nat} : ∀ c ∈ spaces n, c = ' ' := by
  intro c hc
  simpa [spaces] using (List.eq_of_mem_replicate hc)

theorem spaces_length (n : Nat) : (spaces n).length = n := by
  simp [spaces]

theorem mem_strRepeat {n : Nat} {s : Str} : ∀ c ∈ strRepeat n s, c ∈ s := by
  induction n with
  | zero => intro c hc; simp [strRepeat] at hc
  | succ m ih =>
    intro c hc
    simp only [strRepeat, List.mem_append] at hc
    rcases hc with hc | hc
    · exact hc
    · exact ih c hc

theorem leadingSpaces_append_spaces {a : Str} (ha : ∀ c ∈ a, c = ' ') (b : Str) :
    leadingSpaces (a ++ b) = a.length + leadingSpaces b := by
  induction a with
  | nil => simp
  | cons x xs ih =>
    have hx : x = ' ' := ha x (List.mem_cons_self _ _)
    have hxs : ∀ c ∈ xs, c = ' ' := fun c hc => ha c (List.mem_cons_of_mem x hc)
    simp only [List.cons_append, leadingSpaces, List.append_eq]
    rw [if_pos hx, ih hxs]
    simp only [List.length_cons]
    omega

/-- The invariant of every rendered block: empty, or ending in the
blank-line separator. -/
def EndsBlock (s : Str) : Prop := s = [] ∨ ∃ t, s = t ++ ['\n', '\n']

theorem endsBlock_append {a b : Str} (ha : EndsBlock a) (hb : EndsBlock b) :
    EndsBlock (a ++ b) := by
  rcases hb with hb | ⟨t, ht⟩
  · subst hb; simpa using ha
  · subst ht; exact Or.inr ⟨a ++ t, by simp⟩

theorem addBoundary_endsBlock (md : Str) : EndsBlock (addBoundary md) := by
  unfold addBoundary
  split
  · exact Or.inr ⟨md, rfl⟩
  · rename_i hmd
    simp only [ne_eq, not_not] at hmd
    exact Or.inl hmd

theorem partText_endsBlock (p : Part) (lvl : Int) (s : Str) (h : Bool) :
    EndsBlock (partText p lvl s h) :=
  addBoundary_endsBlock _

theorem format_children_eq : ∀ (children : PartList) (lvl : Int) (s : Str)
    (f : Option (List Str)),
    format_children children lvl s f = renderIncludedChildren children.toList lvl s f
  | .nil, _, _, _ => rfl
  | .cons c rest, lvl, s, f => by
    rw [format_children, format_children_eq rest lvl s f]
    simp [renderIncludedChildren, PartList.toList]

/-- The renderer, decomposed: the part's own text block followed by the
included children's blocks, each child rendered at `indentation_level + 1`
with `filter_name = None` and `hide_first_label = True`. -/
theorem format_eq : ∀ (p : Part) (lvl : Int) (s : Str) (f : Option (List Str)) (h : Bool),
    format_part_as_markdown p lvl s f h =
      partText p lvl s h ++ renderIncludedChildren p.childrenList lvl s f
  | .mk n i props prose parts ctrls params, lvl, s, f, h => by
    cases parts with
    | none => rfl
    | some children =>
      show partText _ lvl s h ++ format_children children lvl s f = _
      rw [format_children_eq]
      rfl

mutual
theorem format_endsBlock_aux : ∀ (p : Part) (lvl : Int) (s : Str)
    (f : Option (List Str)) (h : Bool),
    EndsBlock (format_part_as_markdown p lvl s f h)
  | .mk n i props prose parts ctrls params, lvl, s, f, h => by
    rw [format_part_as_markdown.eq_def]
    apply endsBlock_append (partText_endsBlock _ _ _ _)
    cases parts with
    | none => exact Or.inl rfl
    | some children => exact format_children_endsBlock_aux children lvl s f

theorem format_children_endsBlock_aux : ∀ (children : PartList) (lvl : Int)
    (s : Str) (f : Option (List Str)),
    EndsBlock (format_children children lvl s f)
  | .nil, _, _, _ => Or.inl rfl
  | .cons c rest, lvl, s, f => by
    rw [format_children]
    apply endsBlock_append
    · split
      · exact format_endsBlock_aux c (lvl + 1) s none true
      · exact Or.inl rfl
    · exact format_children_endsBlock_aux rest lvl s f
end

/-! ### Properties of the paragraph-marker replacement -/

theorem np_marker_eq (t : Str) :
    normalizeProse (marker ++ t) = '\n' :: '\n' :: normalizeProse t := by
  simp [normalizeProse, marker]

theorem np_cons_inv : ∀ (t : Str) (c : Char) (u : Str),
    normalizeProse t = c :: u → c ≠ '\n' → ∃ w, t = c :: w ∧ normalizeProse w = u
  | [], c, u => by simp [normalizeProse]
  | [a], c, u => by
    intro h _
    simp only [normalizeProse, List.cons.injEq] at h
    exact ⟨[], by simp [h.1], by simp [normalizeProse, h.2.symm]⟩
  | [a, b], c, u => by
    intro h _
    simp only [normalizeProse, List.cons.injEq] at h
    exact ⟨[b], by simp [h.1], by simp [normalizeProse, h.2.symm]⟩
  | [a, b, d], c, u => by
    intro h _
    simp only [normalizeProse, List.cons.injEq] at h
    exact ⟨[b, d], by simp [h.1], by simp [normalizeProse, h.2.symm]⟩
  | a :: b :: d :: e :: rest, c, u => by
    intro h hne
    rw [normalizeProse] at h
    split at h
    · rcases List.cons.inj h with ⟨hc, _⟩
      exact absurd hc.symm hne
    · rcases List.cons.inj h with ⟨hc, hu⟩
      exact ⟨b :: d :: e :: rest, by rw [hc], hu⟩

theorem startsMarker_eq_true : ∀ {s : Str}, startsMarker s = true →
    ∃ u, s = '\\' :: 'n' :: '\\' :: 'n' :: u
  | [], h => by simp [startsMarker] at h
  | [a], h => by simp [startsMarker] at h
  | [a, b], h => by simp [startsMarker] at h
  | [a, b, c], h => by simp [startsMarker] at h
  | a :: b :: c :: d :: rest, h => by
    simp only [startsMarker, Bool.and_eq_true, beq_iff_eq] at h
    exact ⟨rest, by rw [h.1.1.1, h.1.1.2, h.1.2, h.2]⟩

theorem startsMarker_head_ne : ∀ {c : Char}, c ≠ '\\' → ∀ (t : Str),
    startsMarker (c :: t) = false := by
  intro c hc t
  match t with
  | [] => rfl
  | [a] => rfl
  | [a, b] => rfl
  | a :: b :: d :: rest =>
    simp only [startsMarker, Bool.and_eq_false_iff]
    left; left; left
    simpa using hc

theorem hasMarker_normalizeProse : ∀ (s : Str), hasMarker (normalizeProse s) = false
  | [] => rfl
  | [c] => by
    rw [normalizeProse]
    simp [hasMarker, startsMarker]
  | [c₁, c₂] => by
    rw [normalizeProse]
    simp [hasMarker, startsMarker]
  | [c₁, c₂, c₃] => by
    rw [normalizeProse]
    simp [hasMarker, startsMarker]
  | c₁ :: c₂ :: c₃ :: c₄ :: rest => by
    rw [normalizeProse]
    split
    · have ih := hasMarker_normalizeProse rest
      simp only [hasMarker]
      rw [startsMarker_head_ne (by decide) _, startsMarker_head_ne (by decide) _]
      cases hnp : normalizeProse rest with
      | nil => simp [hasMarker]
      | cons x xs =>
        rw [hnp] at ih
        simpa [hasMarker] using ih
    · rename_i hcond
      have ih := hasMarker_normalizeProse (c₂ :: c₃ :: c₄ :: rest)
      simp only [hasMarker]
      rw [ih, Bool.or_false]
      cases hsm : startsMarker (c₁ :: normalizeProse (c₂ :: c₃ :: c₄ :: rest)) with
      | false => rfl
      | true =>
        exfalso
        obtain ⟨u, hu⟩ := startsMarker_eq_true hsm
        rcases List.cons.inj hu with ⟨hc₁, hrest⟩
        obtain ⟨w₁, hw₁, hnp₁⟩ := np_cons_inv _ _ _ hrest (by decide)
        obtain ⟨w₂, hw₂, hnp₂⟩ := np_cons_inv _ _ _ hnp₁ (by decide)
        obtain ⟨w₃, hw₃, _⟩ := np_cons_inv _ _ _ hnp₂ (by decide)
        rcases List.cons.inj hw₁ with ⟨h₂, hr₂⟩
        rw [hw₂] at hr₂
        rcases List.cons.inj hr₂ with ⟨h₃, hr₃⟩
        rw [hw₃] at hr₃
        rcases List.cons.inj hr₃ with ⟨h₄, _⟩
        exact hcond ⟨hc₁, h₂, h₃, h₄⟩

theorem np_no_marker_id : ∀ (s : Str), hasMarker s = false → normalizeProse s = s
  | [] => fun _ => rfl
  | [c] => fun _ => rfl
  | [c₁, c₂] => fun _ => rfl
  | [c₁, c₂, c₃] => fun _ => rfl
  | c₁ :: c₂ :: c₃ :: c₄ :: rest => by
    intro h
    rw [hasMarker, Bool.or_eq_false_iff] at h
    rw [normalizeProse]
    split
    · rename_i hcond
      exfalso
      have : startsMarker (c₁ :: c₂ :: c₃ :: c₄ :: rest) = true := by
        simp [startsMarker, hcond.1, hcond.2.1, hcond.2.2.1, hcond.2.2.2]
      rw [this] at h
      exact absurd h.1 (by simp)
    · have htl : hasMarker (c₂ :: c₃ :: c₄ :: rest) = false := h.2
      rw [np_no_marker_id _ htl]

/-! ### The part's own text block under a present label -/

theorem joinNl_cons_ne_nil {x : Str} (hx : x ≠ []) (xs : List Str) :
    joinNl (x :: xs) ≠ [] := by
  cases xs with
  | nil => simpa [joinNl] using hx
  | cons y ys => simp [joinNl_cons_cons]

theorem joinNl_cons_decomp (x : Str) (xs : List Str) :
    ∃ r, joinNl (x :: xs) = x ++ r := by
  cases xs with
  | nil => exact ⟨[], by simp [joinNl]⟩
  | cons y ys => exact ⟨'\n' :: joinNl (y :: ys), rfl⟩

/-- Computation of the own text block of a part whose `label` property is
found and not suppressed: with `splitNl` of the normalized prose being
`l0 :: ls`, the block is the depth-indented label-joined first line
followed by the depth-indented, label-width-padded remaining lines, and
the paragraph boundary. -/
theorem partText_label_formula (part : Part) (lvl : Int) (s : Str) (h : Bool)
    (prop : Property) (l0 : Str) (ls : List Str)
    (hfind : find_dict_by_value part.properties Property.name (str "label") = some prop)
    (hsup : ¬(lvl = -1 ∧ h = true))
    (hnl : '\n' ∉ prop.value)
    (hsplit : splitNl (match part.prose with
                       | some prose => normalizeProse prose
                       | none => []) = l0 :: ls) :
    partText part lvl s h =
      joinNl ((strRepeatInt lvl s ++ ((prop.value ++ [' ']) ++ l0)) ::
        ls.map (fun line => strRepeatInt lvl s ++ (spaces (prop.value.length + 1) ++ line)))
      ++ ['\n', '\n'] := by
  have hlabelnl : '\n' ∉ prop.value ++ [' '] := by
    simp only [List.mem_append, List.mem_singleton, not_or]
    exact ⟨hnl, by decide⟩
  have hl0 : '\n' ∉ l0 :=
    mem_splitNl_no_nl l0 (by rw [hsplit]; exact List.mem_cons_self _ _)
  have hls : ∀ l ∈ ls, '\n' ∉ l := fun l hl =>
    mem_splitNl_no_nl l (by rw [hsplit]; exact List.mem_cons_of_mem _ hl)
  have hlabelne : prop.value ++ [' '] ≠ [] := by simp
  simp only [partText, hfind]
  rw [if_neg hsup]
  rw [if_pos hlabelne]
  rw [splitNl_append_no_nl hlabelnl hsplit]
  have hlen : (prop.value ++ [' ']).length = prop.value.length + 1 := by simp
  rw [hlen]
  set L := prop.value.length + 1 with hL
  have hX : splitNl (joinNl (((prop.value ++ [' ']) ++ l0) ::
      ls.map (fun line => spaces L ++ line))) =
      ((prop.value ++ [' ']) ++ l0) :: ls.map (fun line => spaces L ++ line) := by
    apply splitNl_joinNl (by simp)
    intro l hl
    rcases List.mem_cons.mp hl with hl | hl
    · subst hl
      intro hc
      rcases List.mem_append.mp hc with hc | hc
      · exact hlabelnl hc
      · exact hl0 hc
    · obtain ⟨l', hl', rfl⟩ := List.mem_map.mp hl
      simp only [List.mem_append, not_or]
      exact ⟨fun hc => by simpa using mem_spaces _ hc, hls l' hl'⟩
  rw [hX]
  rw [List.map_cons, List.map_map]
  have hne : strRepeatInt lvl s ++ ((prop.value ++ [' ']) ++ l0) ≠ [] := by
    simp
  rw [addBoundary, if_pos (joinNl_cons_ne_nil hne _)]
  rfl

/-! ### Claim theorems -/

/-- C10: for every part, depth, indent-unit, name-filter and
root-label-suppression flag, the string returned by
`format_part_as_markdown` is either empty or ends with two newline
characters — every non-empty rendered block terminates in a blank-line
separator. -/
theorem c10_output_empty_or_ends_blank (part : Part) (lvl : Int) (s : Str)
    (f : Option (List Str)) (h : Bool) :
    format_part_as_markdown part lvl s f h = [] ∨
      ∃ t, format_part_as_markdown part lvl s f h = t ++ ['\n', '\n'] :=
  format_endsBlock_aux part lvl s f h

/-- C3: in the renderer's prose-normalization step `normalizeProse`
(Python `prose.replace("\\n\\n", "\n\n")`), no occurrence of the
four-character literal marker (backslash, n, backslash, n) remains in
the output; an occurrence of the marker at the scan position is replaced
by two real newline characters (an actual blank line); and marker-free
text is passed through unchanged, so those replacements are the only
change made. -/
theorem c3_marker_replacement (s : Str) :
    hasMarker (normalizeProse s) = false ∧
    normalizeProse (marker ++ s) = '\n' :: '\n' :: normalizeProse s ∧
    (hasMarker s = false → normalizeProse s = s) :=
  ⟨hasMarker_normalizeProse s, np_marker_eq s, np_no_marker_id s⟩

/-- Witness for C3 at the concrete prose `Do X.\n\nDo Y.` (with literal
backslash-n markers) and the marker-free string `ab`. -/
theorem c3_marker_replacement_witness :
    hasMarker (normalizeProse (str "Do X.\\n\\nDo Y.")) = false ∧
    normalizeProse (marker ++ str "ab") = '\n' :: '\n' :: normalizeProse (str "ab") ∧
    normalizeProse (str "ab") = str "ab" :=
  ⟨(c3_marker_replacement (str "Do X.\\n\\nDo Y.")).1,
   (c3_marker_replacement (str "ab")).2.1,
   (c3_marker_replacement (str "ab")).2.2 (by decide)⟩

theorem foldl_controls_inner (controls : List Part) (acc : List Part) :
    controls.foldl (fun cs control => (cs ++ [control]) ++ subControls control) acc =
      acc ++ controls.flatMap (fun control => control :: subControls control) := by
  induction controls generalizing acc with
  | nil => simp
  | cons c rest ih =>
    rw [List.foldl_cons, ih]
    simp [List.flatMap_cons]

theorem foldl_controls_outer (groups : List Group) (acc : List Part) :
    groups.foldl
      (fun controls group =>
        group.controls.foldl
          (fun cs control => (cs ++ [control]) ++ subControls control) controls)
      acc =
    acc ++ groups.flatMap (fun group =>
      group.controls.flatMap (fun control => control :: subControls control)) := by
  induction groups generalizing acc with
  | nil => simp
  | cons g rest ih =>
    rw [List.foldl_cons, ih, foldl_controls_inner]
    simp [List.flatMap_cons]

/-- C7: `get_controls_all` is the group-order concatenation of the
top-level controls, each control immediately followed by its directly
nested `controls` entries; the flattening is exactly one level deep
(`subControls` of a nested control is never consulted). -/
theorem c7_controls_all_one_level_flatten (cat : Catalog) :
    get_controls_all cat =
      cat.groups.flatMap (fun group =>
        group.controls.flatMap (fun control => control :: subControls control)) := by
  rw [get_controls_all, get_groups, foldl_controls_outer]
  simp

theorem scan_eq_find : ∀ (l : List Part) (cid : Str),
    (∀ c ∈ l, (Part.id c).isSome) →
    scan_controls_for_id l cid = .ok (l.find? (fun c => c.id == some cid))
  | [], _, _ => rfl
  | c :: rest, cid, h => by
    obtain ⟨i, hi⟩ := Option.isSome_iff_exists.mp (h c (List.mem_cons_self _ _))
    simp only [scan_controls_for_id, hi]
    by_cases hic : i = cid
    · subst hic
      rw [if_pos rfl, List.find?_cons_of_pos _ (by simp [hi])]
    · rw [if_neg hic, List.find?_cons_of_neg _ (by simp [hi, hic]),
        scan_eq_find rest cid (fun d hd => h d (List.mem_cons_of_mem _ hd))]

/-- C8: when every control reached by the scan carries an `id` key,
`get_control_by_id` never raises: it returns (as a present value) the
first control of `get_controls_all` whose id equals the argument, and an
absent result (`None`) when no control has that id — exactly
`List.find?` over the `get_controls_all` sequence. -/
theorem c8_control_by_id_is_first_match (cat : Catalog) (control_id : Str)
    (h : ∀ c ∈ get_controls_all cat, (Part.id c).isSome) :
    get_control_by_id cat control_id =
      .ok ((get_controls_all cat).find? (fun c => c.id == some control_id)) :=
  scan_eq_find _ _ h

/-- A one-group catalog used by the C8 witness: control `ac-1` with a
nested sub-control `ac-1.1`. -/
def c8cat : Catalog :=
  Catalog.mk [Group.mk (str "ac")
    [Part.mk none (some (str "ac-1")) [] none .none
      (.some (.cons (Part.mk none (some (str "ac-1.1")) [] none .none .none none) .nil))
      none]]

/-- Witness for C8: on `c8cat`, a present id is found and an absent id
yields `.ok none` — no error. -/
theorem c8_control_by_id_witness :
    (∀ c ∈ get_controls_all c8cat, (Part.id c).isSome) ∧
    get_control_by_id c8cat (str "ac-1.1") =
      .ok ((get_controls_all c8cat).find? (fun c => c.id == some (str "ac-1.1"))) ∧
    get_control_by_id c8cat (str "zz-9") = .ok none :=
  ⟨by decide,
   c8_control_by_id_is_first_match c8cat (str "ac-1.1") (by decide),
   by rw [c8_control_by_id_is_first_match c8cat (str "zz-9") (by decide)]; rfl⟩

/-- C9: `get_control_parameter_label_by_id` returns the `label` field of
the first entry of the control's `parameters` whose `id` equals
`param_id`, and fails (the modelled subscript error — in Python a raised
exception, playing the spec's `NotFoundError` role) whenever no
parameter with that id exists, including when the `parameters` key
itself is absent. -/
theorem c9_parameter_label_lookup (control : Part) (param_id : Str) :
    (∀ params param l, control.parameters = some params →
      find_dict_by_value params Parameter.id param_id = some param →
      param.label = some l →
      get_control_parameter_label_by_id control param_id = .ok l) ∧
    (∀ params, control.parameters = some params →
      find_dict_by_value params Parameter.id param_id = none →
      get_control_parameter_label_by_id control param_id = .error ()) ∧
    (control.parameters = none →
      get_control_parameter_label_by_id control param_id = .error ()) := by
  refine ⟨?_, ?_, ?_⟩
  · intro params param l h1 h2 h3
    rw [get_control_parameter_label_by_id, h1]
    simp only [h2, h3]
  · intro params h1 h2
    rw [get_control_parameter_label_by_id, h1]
    simp only [h2]
  · intro h1
    rw [get_control_parameter_label_by_id, h1]

/-- A control with two parameters used by the C9 witness. -/
def c9control : Part :=
  Part.mk none (some (str "ac-1")) [] none .none .none
    (some [Parameter.mk (str "p-1") (some (str "organization-defined frequency")),
           Parameter.mk (str "p-2") (some (str "organization-defined events"))])

/-- Witness for C9: a present parameter id yields its label, an absent
one fails. -/
theorem c9_parameter_label_lookup_witness :
    get_control_parameter_label_by_id c9control (str "p-2") =
      .ok (str "organization-defined events") ∧
    get_control_parameter_label_by_id c9control (str "p-9") = .error () :=
  ⟨(c9_parameter_label_lookup c9control (str "p-2")).1 _
     (Parameter.mk (str "p-2") (some (str "organization-defined events")))
     (str "organization-defined events") rfl (by decide) rfl,
   (c9_parameter_label_lookup c9control (str "p-9")).2.1 _ rfl (by decide)⟩

/-- C2 counterexample: a part with no `label` property, no prose and no
child parts, rendered at depth 1 with the default four-space indent-unit,
produces four spaces of indentation whitespace followed by a blank line —
not the empty string. -/
theorem c2_empty_part_counterexample :
    format_part_as_markdown (Part.mk none none [] none .none .none none) 1
      (str "    ") none true = str "    \n\n" ∧
    str "    \n\n" ≠ ([] : Str) := by decide

/-- C2 (amended): a part with no `label` property, no prose and no child
parts renders to the empty string exactly when the depth-indentation
(`indentation_level` copies of the indent-unit, non-positive depths
clamped to zero copies) is empty — in particular at every depth ≤ 0 — and
otherwise renders to that indentation whitespace followed by a blank
line; rendering is total and never fails on the absent optional fields. -/
theorem c2_empty_part_rendering (part : Part) (lvl : Int) (s : Str)
    (f : Option (List Str)) (h : Bool)
    (hfind : find_dict_by_value part.properties Property.name (str "label") = none)
    (hprose : part.prose = none)
    (hparts : part.parts = OptParts.none ∨ part.parts = OptParts.some PartList.nil) :
    format_part_as_markdown part lvl s f h =
      (if strRepeatInt lvl s = [] then [] else strRepeatInt lvl s ++ ['\n', '\n']) ∧
    (lvl ≤ 0 → format_part_as_markdown part lvl s f h = []) := by
  have hchildren : renderIncludedChildren part.childrenList lvl s f = [] := by
    rcases hparts with hp | hp <;>
      simp [Part.childrenList, hp, renderIncludedChildren, PartList.toList]
  have hown : partText part lvl s h =
      if strRepeatInt lvl s = [] then [] else strRepeatInt lvl s ++ ['\n', '\n'] := by
    simp only [partText, hfind, hprose, ite_self, List.nil_append, List.append_nil]
    rw [if_neg (by simp)]
    simp only [splitNl, List.map_cons, List.map_nil, List.append_nil, joinNl, addBoundary]
    by_cases hind : strRepeatInt lvl s = [] <;> simp [hind]
  have hfmt : format_part_as_markdown part lvl s f h =
      if strRepeatInt lvl s = [] then [] else strRepeatInt lvl s ++ ['\n', '\n'] := by
    rw [format_eq, hchildren, hown]
    simp
  refine ⟨hfmt, fun hlvl => ?_⟩
  have hz : strRepeatInt lvl s = [] := by
    rw [strRepeatInt, Int.toNat_of_nonpos hlvl]
    rfl
  rw [hfmt, if_pos hz]

/-- Witness for C2 at a concrete empty part: depth 1 yields indentation
plus a blank line; depth -1 yields the empty string. -/
theorem c2_empty_part_rendering_witness :
    (find_dict_by_value (Part.mk none none [] none .none .none none).properties
      Property.name (str "label") = none) ∧
    format_part_as_markdown (Part.mk none none [] none .none .none none) 1
      (str "    ") none true =
      (if strRepeatInt 1 (str "    ") = [] then []
       else strRepeatInt 1 (str "    ") ++ ['\n', '\n']) ∧
    format_part_as_markdown (Part.mk none none [] none .none .none none) (-1)
      (str "    ") none true = [] :=
  ⟨by decide,
   (c2_empty_part_rendering (Part.mk none none [] none .none .none none) 1
     (str "    ") none true (by decide) rfl (Or.inl rfl)).1,
   (c2_empty_part_rendering (Part.mk none none [] none .none .none none) (-1)
     (str "    ") none true (by decide) rfl (Or.inl rfl)).2 (by decide)⟩

/-- The same part with every `label`-named property removed. -/
def stripLabelProperties : Part → Part
  | .mk n i props prose parts ctrls params =>
    .mk n i (props.filter (fun pr => pr.name != str "label")) prose parts ctrls params

theorem find_label_on_filtered (props : List Property) :
    find_dict_by_value (props.filter (fun pr => pr.name != str "label"))
      Property.name (str "label") = none := by
  rw [find_dict_by_value, List.find?_eq_none]
  intro pr hpr
  have h2 := (List.mem_filter.mp hpr).2
  simp only [bne_iff_ne, ne_eq] at h2
  simp [h2]

/-- C5: at the root call (`depth = -1` with root-label suppression, the
default), the label is forced to empty: rendering a part equals rendering
the same part with its `label` properties removed, so the label value is
never emitted as a prefix; at every depth ≥ 0 (every deeper recursion
level — children are rendered at `depth + 1` starting from `-1`) the
label is emitted normally, as a prefix of the part's block right after
the depth-indentation. -/
theorem c5_root_label_suppressed :
    (∀ (part : Part) (s : Str) (f : Option (List Str)),
      format_part_as_markdown part (-1) s f true =
        format_part_as_markdown (stripLabelProperties part) (-1) s f true) ∧
    (∀ (part : Part) (lvl : Int) (s : Str) (f : Option (List Str)) (h : Bool)
      (prop : Property), 0 ≤ lvl →
      find_dict_by_value part.properties Property.name (str "label") = some prop →
      '\n' ∉ prop.value →
      ∃ r, format_part_as_markdown part lvl s f h =
        strRepeatInt lvl s ++ (prop.value ++ [' ']) ++ r) := by
  constructor
  · intro part s f
    cases part with
    | mk n i props prose parts ctrls params => rfl
  · intro part lvl s f h prop hlvl hfind hnl
    have hsup : ¬(lvl = -1 ∧ h = true) := by
      rintro ⟨h1, -⟩
      omega
    rcases hsp : splitNl (match part.prose with
        | some prose => normalizeProse prose
        | none => []) with _ | ⟨l0, ls⟩
    · exact absurd hsp (splitNl_ne_nil _)
    · have hform := partText_label_formula part lvl s h prop l0 ls hfind hsup hnl hsp
      rw [format_eq, hform]
      obtain ⟨r0, hr0⟩ := joinNl_cons_decomp
        (strRepeatInt lvl s ++ ((prop.value ++ [' ']) ++ l0))
        (ls.map (fun line => strRepeatInt lvl s ++ (spaces (prop.value.length + 1) ++ line)))
      rw [hr0]
      exact ⟨l0 ++ (r0 ++ (['\n', '\n'] ++
        renderIncludedChildren part.childrenList lvl s f)), by
          simp [List.append_assoc]⟩

/-- A part carrying a `label` property (value `a.`) and prose, used by
the C5 witness. -/
def c5part : Part :=
  Part.mk none none [Property.mk (str "label") (str "a.")] (some (str "Text"))
    .none .none none

/-- Witness for C5: at the root call on `c5part` the render equals the
label-stripped render; at depth 0 the output starts with the label text
`a. `. -/
theorem c5_root_label_suppressed_witness :
    format_part_as_markdown c5part (-1) (str "  ") none true =
      format_part_as_markdown (stripLabelProperties c5part) (-1) (str "  ") none true ∧
    (format_part_as_markdown c5part 0 (str "  ") none true).take 3 = str "a. " :=
  ⟨c5_root_label_suppressed.1 c5part (str "  ") none, by
    obtain ⟨r, hr⟩ := c5_root_label_suppressed.2 c5part 0 (str "  ") none true
      (Property.mk (str "label") (str "a.")) (by decide) (by decide) (by decide)
    have he : strRepeatInt 0 (str "  ") ++ (str "a." ++ [' ']) = str "a. " := by decide
    rw [hr, he]
    exact List.take_left' (by decide)⟩

/-- C4: a part whose `label` property is found (length of the label text
= length of the value plus one for the trailing space), rendered at depth
≥ 0 with a prose whose normalization splits into first line `l0` and
remaining lines `ls`: the rendered block is the depth-indented
label-joined first line followed by the remaining lines each prefixed by
the depth-indentation and label-width spaces; with an all-space
indent-unit every line after the first carries exactly label-width more
leading spaces than the depth-indentation alone would produce. -/
theorem c4_label_continuation_alignment (part : Part) (lvl : Int) (s : Str)
    (f : Option (List Str)) (h : Bool) (prop : Property) (pr l0 : Str) (ls : List Str)
    (hfind : find_dict_by_value part.properties Property.name (str "label") = some prop)
    (hlvl : 0 ≤ lvl)
    (hnl : '\n' ∉ prop.value)
    (hprose : part.prose = some pr)
    (hparts : part.parts = OptParts.none)
    (hsplit : splitNl (normalizeProse pr) = l0 :: ls) :
    format_part_as_markdown part lvl s f h =
      joinNl ((strRepeatInt lvl s ++ ((prop.value ++ [' ']) ++ l0)) ::
        ls.map (fun line => strRepeatInt lvl s ++ (spaces (prop.value.length + 1) ++ line)))
      ++ ['\n', '\n'] ∧
    ((∀ c ∈ s, c = ' ') → ∀ line ∈ ls,
      leadingSpaces (strRepeatInt lvl s ++ (spaces (prop.value.length + 1) ++ line)) =
        leadingSpaces (strRepeatInt lvl s ++ line) + (prop.value.length + 1)) := by
  have hsup : ¬(lvl = -1 ∧ h = true) := by
    rintro ⟨h1, -⟩
    omega
  have hsplit' : splitNl (match part.prose with
      | some prose => normalizeProse prose
      | none => []) = l0 :: ls := by
    rw [hprose]
    exact hsplit
  constructor
  · rw [format_eq, partText_label_formula part lvl s h prop l0 ls hfind hsup hnl hsplit']
    have hch : renderIncludedChildren part.childrenList lvl s f = [] := by
      simp [Part.childrenList, hparts, renderIncludedChildren]
    rw [hch, List.append_nil]
  · intro hsp line _
    have hind : ∀ c ∈ strRepeatInt lvl s, c = ' ' := fun c hc => hsp c (mem_strRepeat c hc)
    rw [leadingSpaces_append_spaces hind, leadingSpaces_append_spaces hind,
      leadingSpaces_append_spaces (fun c hc => mem_spaces c hc), spaces_length]
    omega

/-- A part with label `a.` and a two-line prose, used by the C4 witness. -/
def c4part : Part :=
  Part.mk none none [Property.mk (str "label") (str "a.")] (some (str "x\ny"))
    .none .none none

/-- Witness for C4 on `c4part` at depth 1 with the default indent-unit:
the second line of the block is the indentation, three alignment spaces
(the width of `a. `), then the text, and its leading-space count exceeds
the depth-indentation-only count by exactly three. -/
theorem c4_label_continuation_alignment_witness :
    format_part_as_markdown c4part 1 (str "    ") none true =
      joinNl ((strRepeatInt 1 (str "    ") ++ ((str "a." ++ [' ']) ++ str "x")) ::
        [str "y"].map (fun line =>
          strRepeatInt 1 (str "    ") ++ (spaces ((str "a.").length + 1) ++ line)))
      ++ ['\n', '\n'] ∧
    leadingSpaces (strRepeatInt 1 (str "    ") ++
        (spaces ((str "a.").length + 1) ++ str "y")) =
      leadingSpaces (strRepeatInt 1 (str "    ") ++ str "y") + ((str "a.").length + 1) :=
  ⟨(c4_label_continuation_alignment c4part 1 (str "    ") none true
      (Property.mk (str "label") (str "a.")) (str "x\ny") (str "x") [str "y"]
      (by decide) (by decide) (by decide) rfl rfl (by decide)).1,
   (c4_label_continuation_alignment c4part 1 (str "    ") none true
      (Property.mk (str "label") (str "a.")) (str "x\ny") (str "x") [str "y"]
      (by decide) (by decide) (by decide) rfl rfl (by decide)).2
     (by decide) (str "y") (by decide)⟩

/-- A root part whose only child is named `a` and whose grandchild is
named `b` and carries prose `HI`. -/
def c1root : Part :=
  Part.mk none none [] none
    (.some (.cons
      (Part.mk (some (str "a")) none [] none
        (.some (.cons
          (Part.mk (some (str "b")) none [] (some (str "HI")) .none .none none)
          .nil))
        .none none)
      .nil))
    .none none

/-- C1 counterexample: rendering `c1root` with name-filter `{a}` — the
grandchild's name `b` is not in the filter, yet the grandchild's prose
`HI` is the whole visible output, because the recursive call of source
lines 228-230 drops the filter.  Under the claim the output would be
empty. -/
theorem c1_filter_recursion_counterexample :
    includeChild (some [str "a"]) (some (str "b")) = false ∧
    format_part_as_markdown c1root (-1) (str "    ") (some [str "a"]) true =
      str "    HI\n\n" ∧
    str "    HI\n\n" ≠ ([] : Str) := by decide

theorem renderIncludedChildren_congr (l : List Part) (lvl : Int) (s : Str)
    (f g : Option (List Str))
    (h : ∀ c ∈ l, includeChild f c.name = includeChild g c.name) :
    renderIncludedChildren l lvl s f = renderIncludedChildren l lvl s g := by
  induction l with
  | nil => rfl
  | cons c rest ih =>
    simp only [renderIncludedChildren, List.flatMap_cons] at ih ⊢
    rw [h c (List.mem_cons_self _ _), ih (fun d hd => h d (List.mem_cons_of_mem _ hd))]

/-- C1 (amended): the name-filter is applied only to the immediate
children of the part the call receives; an included child is recursively
rendered with no filter (`filter_name = None`, source lines 228-230), so
every descendant of an included child is rendered regardless of the
filter.  Consequently the output depends on the filter only through the
inclusion of the immediate children. -/
theorem c1_filter_applies_to_immediate_children_only (part : Part) (lvl : Int)
    (s : Str) (h : Bool) :
    (∀ f, format_part_as_markdown part lvl s f h =
      partText part lvl s h ++ renderIncludedChildren part.childrenList lvl s f) ∧
    (∀ f g, (∀ c ∈ part.childrenList, includeChild f c.name = includeChild g c.name) →
      format_part_as_markdown part lvl s f h = format_part_as_markdown part lvl s g h) := by
  constructor
  · intro f
    exact format_eq part lvl s f h
  · intro f g hagree
    rw [format_eq, format_eq, renderIncludedChildren_congr _ _ _ _ _ hagree]

/-- Witness for C1's amended statement on `c1root`: the decomposition at
the filter `{a}`, and filter-irrelevance between `{a}` and `{a, c}`,
which agree on the immediate child. -/
theorem c1_filter_applies_witness :
    format_part_as_markdown c1root (-1) (str "    ") (some [str "a"]) true =
      partText c1root (-1) (str "    ") true ++
        renderIncludedChildren c1root.childrenList (-1) (str "    ") (some [str "a"]) ∧
    format_part_as_markdown c1root (-1) (str "    ") (some [str "a"]) true =
      format_part_as_markdown c1root (-1) (str "    ") (some [str "a", str "c"]) true :=
  ⟨(c1_filter_applies_to_immediate_children_only c1root (-1) (str "    ") true).1
     (some [str "a"]),
   (c1_filter_applies_to_immediate_children_only c1root (-1) (str "    ") true).2
     (some [str "a"]) (some [str "a", str "c"]) (by decide)⟩

/-- A part whose only child is named `y` and carries prose `HI`, used for
C6. -/
def c6part : Part :=
  Part.mk none none [] none
    (.some (.cons (Part.mk (some (str "y")) none [] (some (str "HI")) .none .none none)
      .nil))
    .none none

/-- C6 counterexample: the empty filter set is a subset of `{x}`, but in
Python an empty set is falsy, so the renderer's skip test never fires and
every child contributes — the name `y` contributes under the empty filter
and not under `{x}`, violating monotonicity. -/
theorem c6_monotonicity_counterexample :
    (([] : List Str).all (fun a => ([str "x"].contains a))) = true ∧
    str "y" ∈ contributingNames c6part (some []) ∧
    str "y" ∉ contributingNames c6part (some [str "x"]) := by decide

/-- C6 (amended): for non-empty filter sets `A ⊆ B` the contributing part
names under `A` are a subset of those under `B` (the empty filter set is
excluded: Python's falsy empty set disables filtering entirely); and with
the filter absent every child's whole subtree contributes. -/
theorem c6_filter_monotonicity :
    (∀ (part : Part) (A B : List Str), A ≠ [] → (∀ x ∈ A, x ∈ B) →
      ∀ n ∈ contributingNames part (some A), n ∈ contributingNames part (some B)) ∧
    (∀ (part : Part), contributingNames part none =
      part.childrenList.flatMap subtreeNames) := by
  constructor
  · intro part A B hA hAB n hn
    rw [contributingNames, List.mem_flatMap] at hn ⊢
    obtain ⟨c, hc, hin⟩ := hn
    refine ⟨c, hc, ?_⟩
    split at hin
    case isFalse => simp at hin
    case isTrue hinc =>
      have hB : includeChild (some B) c.name = true := by
        simp only [includeChild] at hinc ⊢
        cases A with
        | nil => exact absurd rfl hA
        | cons a as =>
          simp only [List.isEmpty_cons] at hinc
          rw [if_neg (by simp)] at hinc
          cases hname : c.name with
          | none => rw [hname] at hinc; exact absurd hinc (by simp)
          | some m =>
            rw [hname] at hinc
            have hm : m ∈ a :: as := by simpa using hinc
            have hmB : m ∈ B := hAB m hm
            cases B with
            | nil => simp at hmB
            | cons b bs =>
              rw [if_neg (by simp)]
              simpa using hmB
      rw [if_pos hB]
      exact hin
  · intro part
    simp [contributingNames, includeChild]

/-- Witness for C6's amended statement on `c6part`: `y` contributes under
`{y}` and so also under the superset `{y, x}`; the absent filter yields
the full subtree-name contribution. -/
theorem c6_filter_monotonicity_witness :
    str "y" ∈ contributingNames c6part (some [str "y", str "x"]) ∧
    contributingNames c6part none = c6part.childrenList.flatMap subtreeNames :=
  ⟨c6_filter_monotonicity.1 c6part [str "y"] [str "y", str "x"] (by decide)
     (by decide) (str "y") (by decide),
   c6_filter_monotonicity.2 c6part⟩

end Oscal
